import Mathlib

/-!
Shallow embedding of `src/app/app.py` (ABAP ORDER BY / SORT rule scanner).

Strings are modelled as `List Char`.  The Python regular expressions are
embedded as concrete character-level matchers that follow the backtracking
semantics of `re` for the specific patterns used by the program:

* `SQL_SELECT_BLOCK_RE  = \bSELECT\b(?P<single>\s+SINGLE)?(?P<select>.+?)`
  `\bFROM\b\s+(?P<table>\w+)(?P<rest>.*?\.)`   (IGNORECASE | DOTALL)
* `FOR_ALL_ENTRIES_RE   = \bFOR\s+ALL\s+ENTRIES\b`        (IGNORECASE)
* `FIELDS_RE            = \b(\w+)\b`                       (IGNORECASE)
* `ORDERBY_RE           = ORDER\s+BY`                      (IGNORECASE)
* `INTO_TABLE_RE        = \bINTO\s+TABLE\s+(?:@DATA\((\w+)\)|(\w+))`
* `make_sort_re(t)      = \bSORT\s+t\b.*?\bBY\b`           (IGNORECASE | DOTALL)

Greedy sub-patterns such as `\s+` or `\w+` that are followed by a character
that cannot re-enter the class are implemented by their maximal-munch
equivalent (backtracking them can never succeed, because every shorter
attempt leaves the next input character inside the class).  The optional
`single` group and the lazy `.+?` / `.*?` loops are implemented with genuine
backtracking / shortest-first search, as in `re`.
-/

namespace AbapScan

abbrev Str := List Char

/-- Convert a Lean string literal to the `List Char` representation. -/
def lit (s : String) : Str := s.toList

/-- Python regex `\w` (ASCII fragment): letters, digits, underscore. -/
def isWordChar (c : Char) : Bool := c.isAlphanum || c == '_'

/-- Python whitespace (`\s` of `re` and `str.strip`/`str.isspace`). -/
def isSpaceChar (c : Char) : Bool :=
  c == ' ' || c == '\t' || c == '\n' || c == '\r' || c == '\x0b' || c == '\x0c' ||
  c == '\x1c' || c == '\x1d' || c == '\x1e' || c == '\x1f' || c == '\x85' || c == '\xa0'

/-- Word-character test on an optional character (`none` = outside the string). -/
def isWordOpt : Option Char → Bool
  | some c => isWordChar c
  | none => false

/-- Case-insensitive character comparison (the IGNORECASE flag). -/
def lowerEq (p c : Char) : Bool := p.toLower == c.toLower

/-- Match the literal pattern `p` case-insensitively at the front of `s`.
Returns the consumed original characters together with the rest. -/
def splitCI : Str → Str → Option (Str × Str)
  | [], s => some ([], s)
  | _ :: _, [] => none
  | p :: ps, c :: cs =>
    if lowerEq p c then
      match splitCI ps cs with
      | some (a, r) => some (c :: a, r)
      | none => none
    else none

/-- Maximal run of whitespace characters at the front (`\s*`). -/
def spanSpaces : Str → Str × Str
  | [] => ([], [])
  | c :: cs =>
    if isSpaceChar c then
      let p := spanSpaces cs
      (c :: p.1, p.2)
    else ([], c :: cs)

/-- Pattern `\s+`: at least one whitespace character, maximal run. -/
def takeSpaces1 (s : Str) : Option (Str × Str) :=
  let p := spanSpaces s
  if p.1.isEmpty then none else some p

/-- Maximal run of word characters at the front (`\w*`). -/
def spanWord : Str → Str × Str
  | [] => ([], [])
  | c :: cs =>
    if isWordChar c then
      let p := spanWord cs
      (c :: p.1, p.2)
    else ([], c :: cs)

/-- Pattern `\w+`: at least one word character, maximal run. -/
def takeWord1 (s : Str) : Option (Str × Str) :=
  let p := spanWord s
  if p.1.isEmpty then none else some p

/-- Lazy `.*?\.` under DOTALL: consume up to and including the first period. -/
def upToDot : Str → Option (Str × Str)
  | [] => none
  | c :: cs =>
    if c == '.' then some ([c], cs)
    else
      match upToDot cs with
      | some (a, r) => some (c :: a, r)
      | none => none

/-- Tail `\bFROM\b\s+(?P<table>\w+)(?P<rest>.*?\.)` of `SQL_SELECT_BLOCK_RE`
at the current position; `prev` is the character just before the position. -/
def tailFrom (prev : Option Char) (s : Str) : Option (Str × Str) :=
  if isWordOpt prev then none
  else
    match splitCI (lit "from") s with
    | none => none
    | some (kw, r1) =>
      match takeSpaces1 r1 with
      | none => none
      | some (sp, r2) =>
        match takeWord1 r2 with
        | none => none
        | some (tbl, r3) =>
          match upToDot r3 with
          | none => none
          | some (rest, r4) => some (kw ++ (sp ++ (tbl ++ rest)), r4)

/-- Lazy group `(?P<select>.+?)` followed by the FROM tail: grow the select
group one character at a time, trying the tail at each stop (shortest first).
`acc` holds the select characters consumed so far, reversed. -/
def selectLoop (lastc : Char) (acc : Str) (s : Str) : Option (Str × Str × Str) :=
  match s with
  | [] =>
    match tailFrom (some lastc) [] with
    | some (tail, rem) => some (acc.reverse, tail, rem)
    | none => none
  | c :: cs =>
    match tailFrom (some lastc) (c :: cs) with
    | some (tail, rem) => some (acc.reverse, tail, rem)
    | none => selectLoop c (c :: acc) cs

/-- Raw result of one `SQL_SELECT_BLOCK_RE` attempt. -/
structure RawM where
  single : Bool
  selectRaw : Str
  text : Str
  rem : Str
deriving Repr, DecidableEq

/-- Continuation after `\bSELECT\b` and the optional single group: the select
group, the FROM tail, and the assembled match text.  `kwPart` holds the
characters consumed before the select group. -/
def afterSelect (kwPart : Str) (isSingle : Bool) (s : Str) : Option RawM :=
  match s with
  | [] => none
  | c :: cs =>
    match selectLoop c [c] cs with
    | none => none
    | some (sel, tail, rem) => some ⟨isSingle, sel, kwPart ++ (sel ++ tail), rem⟩

/-- Optional group `(?P<single>\s+SINGLE)`. -/
def singleGroup (s : Str) : Option (Str × Str) :=
  match takeSpaces1 s with
  | none => none
  | some (sp, r1) =>
    match splitCI (lit "single") r1 with
    | none => none
    | some (kw, r2) => some (sp ++ kw, r2)

/-- One attempt of `SQL_SELECT_BLOCK_RE` at the current position.  The
optional `single` group is tried first; if the remainder of the pattern
cannot complete, the engine backtracks and retries without the group. -/
def matchSelectCore (prev : Option Char) (s : Str) : Option RawM :=
  if isWordOpt prev then none
  else
    match splitCI (lit "select") s with
    | none => none
    | some (kw, r1) =>
      if isWordOpt r1.head? then none
      else
        match
          (match singleGroup r1 with
           | some (sg, r2) => afterSelect (kw ++ sg) true r2
           | none => none)
        with
        | some m => some m
        | none => afterSelect kw false r1

/-- One located SELECT statement (`re.Match` data used by `scan_sql`). -/
structure StmtMatch where
  start : Nat
  stop : Nat
  text : Str
  isSingle : Bool
  selectRaw : Str
deriving Repr, DecidableEq

/-- The scanning loop of `finditer`: try a match at every position, resume
immediately after each match's end.  `fuel` only bounds the recursion; every
step consumes at least one character, so `length + 1` fuel is exhaustive. -/
def locateAux : Nat → Option Char → Str → Nat → List StmtMatch
  | 0, _, _, _ => []
  | fuel + 1, prev, s, pos =>
    match s with
    | [] => []
    | c :: cs =>
      match matchSelectCore prev (c :: cs) with
      | some m =>
        ⟨pos, pos + m.text.length, m.text, m.single, m.selectRaw⟩ ::
          locateAux fuel m.text.getLast? m.rem (pos + m.text.length)
      | none => locateAux fuel (some c) cs (pos + 1)

/-- All statements located by `SQL_SELECT_BLOCK_RE.finditer(code)`. -/
def locate (code : Str) : List StmtMatch :=
  locateAux (code.length + 1) none code 0

/-- Attempt of `FOR_ALL_ENTRIES_RE` at one position. -/
def faeAt (prev : Option Char) (s : Str) : Bool :=
  if isWordOpt prev then false
  else
    match splitCI (lit "for") s with
    | none => false
    | some (_, r1) =>
      match takeSpaces1 r1 with
      | none => false
      | some (_, r2) =>
        match splitCI (lit "all") r2 with
        | none => false
        | some (_, r3) =>
          match takeSpaces1 r3 with
          | none => false
          | some (_, r4) =>
            match splitCI (lit "entries") r4 with
            | none => false
            | some (_, r5) => !isWordOpt r5.head?

/-- Search driver for `FOR_ALL_ENTRIES_RE.search`. -/
def searchFae (prev : Option Char) (s : Str) : Bool :=
  match s with
  | [] => faeAt prev []
  | c :: cs => faeAt prev (c :: cs) || searchFae (some c) cs

/-- `FOR_ALL_ENTRIES_RE.search(t) is not None`. -/
def hasFae (t : Str) : Bool := searchFae none t

/-- Attempt of `ORDERBY_RE` (`ORDER\s+BY`, no word boundaries) at a position. -/
def orderByAt (s : Str) : Bool :=
  match splitCI (lit "order") s with
  | none => false
  | some (_, r1) =>
    match takeSpaces1 r1 with
    | none => false
    | some (_, r2) => (splitCI (lit "by") r2).isSome

/-- `ORDERBY_RE.search(s) is not None`. -/
def orderBySearch (s : Str) : Bool :=
  match s with
  | [] => orderByAt []
  | c :: cs => orderByAt (c :: cs) || orderBySearch cs

/-- Python `s.replace("\n", " ")` on one character. -/
def nlMap (c : Char) : Char := if c == '\n' then ' ' else c

/-- Python `s.replace("\n", " ")`. -/
def replaceNl (s : Str) : Str := s.map nlMap

/-- Attempt of `INTO_TABLE_RE` at one position: the captured target name
(`@DATA(\w+)` alternative first, then the bare `\w+` alternative). -/
def intoTableAt (prev : Option Char) (s : Str) : Option Str :=
  if isWordOpt prev then none
  else
    match splitCI (lit "into") s with
    | none => none
    | some (_, r1) =>
      match takeSpaces1 r1 with
      | none => none
      | some (_, r2) =>
        match splitCI (lit "table") r2 with
        | none => none
        | some (_, r3) =>
          match takeSpaces1 r3 with
          | none => none
          | some (_, r4) =>
            match
              (match r4 with
               | '@' :: r5 =>
                 match splitCI (lit "data") r5 with
                 | none => none
                 | some (_, r6) =>
                   match r6 with
                   | '(' :: r7 =>
                     match takeWord1 r7 with
                     | none => none
                     | some (name, r8) =>
                       match r8 with
                       | ')' :: _ => some name
                       | _ => none
                   | _ => none
               | _ => none)
            with
            | some name => some name
            | none =>
              match takeWord1 r4 with
              | none => none
              | some (name, _) => some name

/-- Search driver for `INTO_TABLE_RE.search` (leftmost match wins). -/
def intoTableSearch (prev : Option Char) (s : Str) : Option Str :=
  match s with
  | [] => intoTableAt prev []
  | c :: cs =>
    match intoTableAt prev (c :: cs) with
    | some name => some name
    | none => intoTableSearch (some c) cs

/-- Extracted `INTO TABLE` target of a statement (`m.group(1) or m.group(2)`). -/
def intoTableTarget (t : Str) : Option Str := intoTableSearch none t

/-- Attempt of `\bBY\b` at one position. -/
def byAt (prev : Option Char) (s : Str) : Bool :=
  if isWordOpt prev then false
  else
    match splitCI (lit "by") s with
    | none => false
    | some (_, r) => !isWordOpt r.head?

/-- Search for `\bBY\b` (the `.*?\bBY\b` tail of `make_sort_re`). -/
def searchBy (prev : Option Char) (s : Str) : Bool :=
  match s with
  | [] => byAt prev []
  | c :: cs => byAt prev (c :: cs) || searchBy (some c) cs

/-- Attempt of `make_sort_re(table)` (`\bSORT\s+table\b.*?\bBY\b`) at one
position.  `re.escape` is the identity on the `\w+`-captured table name. -/
def sortAt (table : Str) (prev : Option Char) (s : Str) : Bool :=
  if isWordOpt prev then false
  else
    match splitCI (lit "sort") s with
    | none => false
    | some (_, r1) =>
      match takeSpaces1 r1 with
      | none => false
      | some (sp, r2) =>
        match splitCI table r2 with
        | none => false
        | some (tb, r3) =>
          if isWordOpt r3.head? then false
          else searchBy (some (tb.getLastD (sp.getLastD ' '))) r3

/-- Search driver for `make_sort_re(table).search`. -/
def sortSearchAux (table : Str) (prev : Option Char) (s : Str) : Bool :=
  match s with
  | [] => sortAt table prev []
  | c :: cs => sortAt table prev (c :: cs) || sortSearchAux table (some c) cs

/-- `make_sort_re(table).search(t) is not None`. -/
def sortSearch (table : Str) (t : Str) : Bool := sortSearchAux table none t

/-- Line terminators recognised by Python `str.splitlines`. -/
def isLineTerm (c : Char) : Bool :=
  c == '\n' || c == '\r' || c == '\x0b' || c == '\x0c' ||
  c == '\x1c' || c == '\x1d' || c == '\x1e' || c == '\x85' ||
  c == '\u2028' || c == '\u2029'

/-- Python `str.splitlines`: terminators are dropped, `\r\n` counts once,
and a trailing terminator does not produce a final empty line.  `afterCR`
records that the previous character was a `\r` whose line was already
emitted, so an immediately following `\n` is part of the same terminator. -/
def splitLinesAux (afterCR : Bool) (cur : Str) : Str → List Str
  | [] => if cur.isEmpty then [] else [cur.reverse]
  | c :: cs =>
    if afterCR && c == '\n' then splitLinesAux false cur cs
    else if c == '\r' then cur.reverse :: splitLinesAux true [] cs
    else if isLineTerm c then cur.reverse :: splitLinesAux false [] cs
    else splitLinesAux false (c :: cur) cs

/-- Python `str.strip()` (default whitespace stripping on both ends). -/
def stripStr (s : Str) : Str :=
  ((s.dropWhile isSpaceChar).reverse.dropWhile isSpaceChar).reverse

/-- Python `"\n".join`. -/
def joinNl : List Str → Str
  | [] => []
  | l :: [] => l
  | l :: ls => l ++ '\n' :: joinNl ls

/-- The comment-stripping loop of the FOR ALL ENTRIES branch: drop every
line whose stripped content starts with `*`, rejoin with newlines. -/
def removeCommentLines (t : Str) : Str :=
  joinNl ((splitLinesAux false [] t).filter fun l =>
    match stripStr l with
    | '*' :: _ => false
    | _ => true)

/-- Substitution `re.sub(r'^\s*SINGLE\s+', '', s)`: strip one leading SINGLE
token (anchored at the start, so at most one removal). -/
def stripLeadingSingle (s : Str) : Str :=
  let p := spanSpaces s
  match splitCI (lit "single") p.2 with
  | none => s
  | some (_, r1) =>
    match takeSpaces1 r1 with
    | none => s
    | some (_, r2) => r2

/-- Test for `\bINTO\b.+` (DOTALL) at one position: an INTO keyword with a
word boundary on both sides and at least one following character. -/
def intoCutAt (prev : Option Char) (s : Str) : Bool :=
  if isWordOpt prev then false
  else
    match splitCI (lit "into") s with
    | none => false
    | some (_, r) =>
      match r with
      | [] => false
      | c :: _ => !isWordChar c

/-- Substitution `re.sub(r"\bINTO\b.+", "", s)` (DOTALL): the greedy `.+`
reaches the end of the string, so the sub cuts at the first matching INTO. -/
def removeIntoAux (prev : Option Char) (s : Str) : Str :=
  match s with
  | [] => []
  | c :: cs =>
    if intoCutAt prev (c :: cs) then [] else c :: removeIntoAux (some c) cs

/-- Cut everything from the first INTO keyword onward. -/
def removeInto (s : Str) : Str := removeIntoAux none s

/-- Substitution `re.sub(r"\s+", " ", s)`: collapse whitespace runs. -/
def collapseWsAux (inRun : Bool) : Str → Str
  | [] => []
  | c :: cs =>
    if isSpaceChar c then
      if inRun then collapseWsAux true cs else ' ' :: collapseWsAux true cs
    else c :: collapseWsAux false cs

/-- Collapse every whitespace run to a single space. -/
def collapseWs (s : Str) : Str := collapseWsAux false s

/-- Cleaned selection clause (`select_fields_raw` after the three
substitutions and `strip` in `scan_sql`). -/
def cleanSelect (isSingle : Bool) (selRaw : Str) : Str :=
  let s1 := if isSingle then stripLeadingSingle selRaw else selRaw
  let s2 := removeInto s1
  stripStr (collapseWs s2)

/-- Findall of `FIELDS_RE = \b(\w+)\b`: with a boundary on each side and a
greedy `\w+`, every match is a maximal word-character run, and scanning
resumes after each run.  `cur` holds the current run, reversed. -/
def wordFindAux (cur : Str) : Str → List Str
  | [] => if cur.isEmpty then [] else [cur.reverse]
  | c :: cs =>
    if isWordChar c then wordFindAux (c :: cur) cs
    else if cur.isEmpty then wordFindAux [] cs
    else cur.reverse :: wordFindAux [] cs

/-- `FIELDS_RE.findall(s)`. -/
def findallWords (s : Str) : List Str := wordFindAux [] s

/-- Python `str.upper` (ASCII). -/
def upperStr (s : Str) : Str := s.map Char.toUpper

/-- Python `list(dict.fromkeys(l))`: deduplicate, keep first occurrences. -/
def dedupeAux (seen : List Str) : List Str → List Str
  | [] => []
  | x :: xs => if x ∈ seen then dedupeAux seen xs else x :: dedupeAux (x :: seen) xs

/-- Deduplicate a token list preserving first-occurrence order. -/
def dedupe (l : List Str) : List Str := dedupeAux [] l

/-- The `fields` list of `scan_sql`: tokens of the cleaned selection clause,
uppercased, with DISTINCT discarded, deduplicated. -/
def fieldList (cleaned : Str) : List Str :=
  dedupe (((findallWords cleaned).map upperStr).filter fun t => t ≠ lit "DISTINCT")

/-- One finding produced by `scan_sql`. -/
structure Finding where
  target_type : Str
  target_name : Str
  span : Nat × Nat
  used_fields : List Str
  suggested_statement : Str
deriving Repr, DecidableEq

/-- Python f-string interpolation of an `Optional[str]` (`None` prints as
the literal text `None`). -/
def pyStrOpt : Option Str → Str
  | none => lit "None"
  | some t => t

/-- Python `", ".join`. -/
def joinCommaSpace : List Str → Str
  | [] => []
  | x :: [] => x
  | x :: xs => x ++ ',' :: ' ' :: joinCommaSpace xs

/-- Suggestion text of the wildcard branch. -/
def wildcardMsg : Str :=
  lit "Avoid SELECT * — not recommended. Please specify fields explicitly."

/-- Suggestion text of the plain (ORDER BY) branch. -/
def orderByMsg (fields : List Str) : Str :=
  if fields.isEmpty then lit "Add ORDER BY with all select fields."
  else
    lit "Add ORDER BY " ++ joinCommaSpace fields ++
      lit " inside SELECT (all fields in select list)."

/-- Suggestion text of the FOR ALL ENTRIES (SORT) branch. -/
def sortMsg (fields : List Str) (target : Option Str) : Str :=
  if fields.isEmpty then
    lit "Add SORT by all select fields after this SELECT into " ++ pyStrOpt target ++ lit "."
  else
    lit "Add SORT by " ++ joinCommaSpace fields ++ lit " after this SELECT into " ++
      pyStrOpt target ++ lit " (all fields in select list)."

/-- The `target_name` tag attached to a finding. -/
def tagName (isSingle hasFaeB : Bool) : Str :=
  if isSingle then lit "SELECT_SINGLE"
  else if hasFaeB then lit "FOR_ALL_ENTRIES"
  else lit "NO_FOR_ALL_ENTRIES"

/-- Body of the `scan_sql` loop for one located statement: zero or one
finding (`results.append` happens at most once per iteration). -/
def processStmt (code : Str) (m : StmtMatch) : Option Finding :=
  let stmtText := m.text
  let hasFaeB := hasFae stmtText
  let cleaned := cleanSelect m.isSingle m.selectRaw
  if cleaned.contains '*' then
    some ⟨lit "SQL_SELECT", tagName m.isSingle hasFaeB, (m.start, m.stop),
      [lit "*"], wildcardMsg⟩
  else
    let fields := fieldList cleaned
    let target := intoTableTarget stmtText
    let suggestion : Option Str :=
      if m.isSingle then none
      else if !hasFaeB then
        if !orderBySearch (replaceNl stmtText) then some (orderByMsg fields) else none
      else
        let afterText := removeCommentLines (code.drop m.stop)
        let foundSort :=
          match target with
          | some tbl => sortSearch tbl afterText
          | none => false
        if !foundSort then some (sortMsg fields target) else none
    match suggestion with
    | none => none
    | some sug =>
      some ⟨lit "SQL_SELECT", tagName m.isSingle hasFaeB, (m.start, m.stop), fields, sug⟩

/-- The `scan_sql` function: one ordered pass over the located statements. -/
def scan_sql (code : Str) : List Finding :=
  (locate code).filterMap (processStmt code)

/-- Input record of the request handler (`Unit` in the Python source). -/
structure CodeUnit where
  pgm_name : Str
  inc_name : Str
  type : Str
  name : Option Str
  code : Option Str
deriving Repr, DecidableEq

/-- The deduplication loop of `assess`: keep a finding only if its key
`(target_type, span)` has not been seen. -/
def dedupFindingsAux (seen : List (Str × Nat × Nat)) : List Finding → List Finding
  | [] => []
  | f :: fs =>
    if (f.target_type, f.span) ∈ seen then dedupFindingsAux seen fs
    else f :: dedupFindingsAux ((f.target_type, f.span) :: seen) fs

/-- Deduplicate findings by `(target_type, span)`. -/
def dedupFindings (l : List Finding) : List Finding := dedupFindingsAux [] l

/-- Findings attached to one unit by `assess` (`u.code or ""` then scan
then dedup; the per-element reshaping into the response dict is 1-1). -/
def assessUnit (u : CodeUnit) : List Finding :=
  dedupFindings (scan_sql (u.code.getD []))

/-- Decidable test used to state span validity: the text begins with the
SELECT keyword, case-insensitively. -/
def startsWithSelectCI (s : Str) : Bool := (splitCI (lit "select") s).isSome




/-! ### Decomposition lemmas for the matcher primitives -/

theorem splitCI_append {p : Str} :
    ∀ {s a r : Str}, splitCI p s = some (a, r) → a ++ r = s := by
  induction p with
  | nil =>
    intro s a r h
    simp [splitCI] at h
    simp [← h.1, ← h.2]
  | cons pc ps ih =>
    intro s a r h
    cases s with
    | nil => simp [splitCI] at h
    | cons c cs =>
      simp only [splitCI] at h
      split at h
      · cases hsp : splitCI ps cs with
        | none => rw [hsp] at h; exact absurd h (by simp)
        | some pr =>
          rw [hsp] at h
          simp at h
          obtain ⟨ha, hr⟩ := h
          subst ha hr
          simpa using ih hsp
      · exact absurd h (by simp)

theorem splitCI_restart {p : Str} :
    ∀ {s a r : Str}, splitCI p s = some (a, r) →
      ∀ t : Str, splitCI p (a ++ t) = some (a, t) := by
  induction p with
  | nil =>
    intro s a r h t
    simp [splitCI] at h
    simp [splitCI, ← h.1]
  | cons pc ps ih =>
    intro s a r h t
    cases s with
    | nil => simp [splitCI] at h
    | cons c cs =>
      simp only [splitCI] at h
      split at h
      · cases hsp : splitCI ps cs with
        | none => rw [hsp] at h; exact absurd h (by simp)
        | some pr =>
          obtain ⟨a1, r1⟩ := pr
          rw [hsp] at h
          simp at h
          obtain ⟨ha, hr⟩ := h
          subst ha hr
          simp only [List.cons_append, splitCI]
          rw [if_pos (by assumption)]
          simp only [List.append_eq]
          rw [ih hsp t]
      · exact absurd h (by simp)

theorem spanSpaces_append : ∀ s : Str, (spanSpaces s).1 ++ (spanSpaces s).2 = s := by
  intro s
  induction s with
  | nil => simp [spanSpaces]
  | cons c cs ih =>
    simp only [spanSpaces]
    split
    · simpa using ih
    · simp

theorem takeSpaces1_append {s a r : Str} (h : takeSpaces1 s = some (a, r)) :
    a ++ r = s := by
  simp only [takeSpaces1] at h
  split at h
  · exact absurd h (by simp)
  · simp at h
    have hs := spanSpaces_append s
    rw [h] at hs
    exact hs

theorem spanWord_append : ∀ s : Str, (spanWord s).1 ++ (spanWord s).2 = s := by
  intro s
  induction s with
  | nil => simp [spanWord]
  | cons c cs ih =>
    simp only [spanWord]
    split
    · simpa using ih
    · simp

theorem takeWord1_append {s a r : Str} (h : takeWord1 s = some (a, r)) :
    a ++ r = s := by
  simp only [takeWord1] at h
  split at h
  · exact absurd h (by simp)
  · simp at h
    have hs := spanWord_append s
    rw [h] at hs
    exact hs

theorem upToDot_spec :
    ∀ {s a r : Str}, upToDot s = some (a, r) →
      a ++ r = s ∧ a.getLast? = some '.' := by
  intro s
  induction s with
  | nil => intro a r h; simp [upToDot] at h
  | cons c cs ih =>
    intro a r h
    simp only [upToDot] at h
    split at h
    · rename_i hc
      simp at h
      obtain ⟨ha, hr⟩ := h
      subst ha hr
      have hcd : c = '.' := by simpa using hc
      simp [hcd]
    · cases hud : upToDot cs with
      | none => rw [hud] at h; exact absurd h (by simp)
      | some pr =>
        obtain ⟨a1, r1⟩ := pr
        rw [hud] at h
        simp at h
        obtain ⟨ha, hr⟩ := h
        subst ha hr
        obtain ⟨hap, hlast⟩ := ih hud
        refine ⟨by simpa using hap, ?_⟩
        cases a1 with
        | nil => simp at hlast
        | cons x xs => rw [List.getLast?_cons_cons]; exact hlast

theorem getLast?_append_dot {a b : Str} (h : b.getLast? = some '.') :
    (a ++ b).getLast? = some '.' := by
  rw [List.getLast?_append, h]
  rfl

theorem tailFrom_spec {prev : Option Char} {s tail rem : Str}
    (h : tailFrom prev s = some (tail, rem)) :
    tail ++ rem = s ∧ tail.getLast? = some '.' := by
  simp only [tailFrom] at h
  split at h
  · exact absurd h (by simp)
  split at h
  · exact absurd h (by simp)
  split at h
  · exact absurd h (by simp)
  split at h
  · exact absurd h (by simp)
  split at h
  · exact absurd h (by simp)
  rename_i hw pr1 kw r1 h1 pr2 sp r2 h2 pr3 tbl r3 h3 pr4 rest r4 h4
  simp at h
  obtain ⟨ht, hr⟩ := h
  obtain ⟨hap4, hlast⟩ := upToDot_spec h4
  subst hr
  constructor
  · rw [← ht, ← splitCI_append h1, ← takeSpaces1_append h2, ← takeWord1_append h3, ← hap4]
    simp
  · rw [← ht]
    exact getLast?_append_dot (getLast?_append_dot (getLast?_append_dot hlast))

theorem selectLoop_spec {lastc : Char} {acc s sel tail rem : Str}
    (h : selectLoop lastc acc s = some (sel, tail, rem)) :
    sel ++ tail ++ rem = acc.reverse ++ s ∧ tail.getLast? = some '.' := by
  induction s generalizing lastc acc with
  | nil =>
    simp only [selectLoop] at h
    split at h
    · rename_i pr tl rm htf
      simp at h
      obtain ⟨hsel, htl, hrm⟩ := h
      obtain ⟨hap, hlast⟩ := tailFrom_spec htf
      subst hsel htl hrm
      exact ⟨by simpa using hap, hlast⟩
    · exact absurd h (by simp)
  | cons c cs ih =>
    simp only [selectLoop] at h
    split at h
    · rename_i pr tl rm htf
      simp at h
      obtain ⟨hsel, htl, hrm⟩ := h
      obtain ⟨hap, hlast⟩ := tailFrom_spec htf
      subst hsel htl hrm
      exact ⟨by rw [List.append_assoc, hap], hlast⟩
    · obtain ⟨hap, hlast⟩ := ih h
      refine ⟨?_, hlast⟩
      rw [hap]
      simp

theorem afterSelect_spec {kwPart : Str} {b : Bool} {s : Str} {m : RawM}
    (h : afterSelect kwPart b s = some m) :
    m.text ++ m.rem = kwPart ++ s ∧ m.single = b ∧
      (∃ mid : Str, m.text = kwPart ++ mid ∧ mid.getLast? = some '.') := by
  cases s with
  | nil => simp [afterSelect] at h
  | cons c cs =>
    simp only [afterSelect] at h
    split at h
    · exact absurd h (by simp)
    rename_i pr sel tl rm hsl
    simp at h
    obtain ⟨hap, hlast⟩ := selectLoop_spec hsl
    subst h
    refine ⟨?_, rfl, ⟨sel ++ tl, by simp, getLast?_append_dot hlast⟩⟩
    simp only
    rw [List.append_assoc, List.append_assoc, ← List.append_assoc sel, hap]
    simp

theorem singleGroup_append {s sg r2 : Str} (h : singleGroup s = some (sg, r2)) :
    sg ++ r2 = s := by
  simp only [singleGroup] at h
  split at h
  · exact absurd h (by simp)
  split at h
  · exact absurd h (by simp)
  rename_i x1 sp r1 h1 x2 kw r h2
  clear x1 x2
  simp at h
  obtain ⟨hsg, hr⟩ := h
  subst hsg hr
  rw [List.append_assoc, splitCI_append h2, takeSpaces1_append h1]

theorem matchSelectCore_spec {prev : Option Char} {s : Str} {m : RawM}
    (h : matchSelectCore prev s = some m) :
    m.text ++ m.rem = s ∧ m.text.getLast? = some '.' ∧
      startsWithSelectCI m.text = true := by
  simp only [matchSelectCore] at h
  split at h
  · exact absurd h (by simp)
  split at h
  · exact absurd h (by simp)
  rename_i kw r1 h1
  split at h
  · exact absurd h (by simp)
  have hkw := splitCI_append h1
  have hstarts : ∀ x : Str, startsWithSelectCI (kw ++ x) = true := by
    intro x
    simp [startsWithSelectCI, splitCI_restart h1 x]
  split at h
  · rename_i m2 hm2
    simp at h
    subst h
    split at hm2
    · rename_i sg r2 hsg
      obtain ⟨hap, -, mid, htext, hlast⟩ := afterSelect_spec hm2
      have hsgr : sg ++ r2 = r1 := singleGroup_append hsg
      refine ⟨?_, ?_, ?_⟩
      · rw [hap, ← hkw, ← hsgr]; simp
      · rw [htext]; exact getLast?_append_dot hlast
      · rw [htext, List.append_assoc]; exact hstarts (sg ++ mid)
    · exact absurd hm2 (by simp)
  · obtain ⟨hap, -, mid, htext, hlast⟩ := afterSelect_spec h
    refine ⟨by rw [hap, hkw], ?_, ?_⟩
    · rw [htext]; exact getLast?_append_dot hlast
    · rw [htext]; exact hstarts mid


/-! ### Invariants of the statement locator -/

theorem locateAux_mem_spec {fuel : Nat} :
    ∀ {prev : Option Char} {s : Str} {pos : Nat} {m : StmtMatch},
      m ∈ locateAux fuel prev s pos →
      (∃ a b : Str, s = a ++ (m.text ++ b) ∧ m.start = pos + a.length) ∧
        m.stop = m.start + m.text.length ∧
        m.text.getLast? = some '.' ∧
        startsWithSelectCI m.text = true := by
  induction fuel with
  | zero => intro prev s pos m hm; simp [locateAux] at hm
  | succ fuel ih =>
    intro prev s pos m hm
    cases s with
    | nil => simp [locateAux] at hm
    | cons c cs =>
      simp only [locateAux] at hm
      split at hm
      · rename_i m0 hmc
        obtain ⟨hap, hdot, hsel⟩ := matchSelectCore_spec hmc
        rcases List.mem_cons.mp hm with hm1 | hm1
        · subst hm1
          exact ⟨⟨[], m0.rem, by simpa using hap.symm, by simp⟩, rfl, hdot, hsel⟩
        · obtain ⟨⟨a, b, hs, hstart⟩, hrest⟩ := ih hm1
          refine ⟨⟨m0.text ++ a, b, ?_, ?_⟩, hrest⟩
          · rw [← hap, hs]
            simp
          · simp only [List.length_append]
            omega
      · rename_i hmc
        obtain ⟨⟨a, b, hs, hstart⟩, hrest⟩ := ih hm
        refine ⟨⟨c :: a, b, by rw [hs]; simp, ?_⟩, hrest⟩
        simp only [List.length_cons]
        omega

theorem locateAux_start_ge {fuel : Nat} {prev : Option Char} {s : Str} {pos : Nat}
    {m : StmtMatch} (hm : m ∈ locateAux fuel prev s pos) : pos ≤ m.start := by
  obtain ⟨⟨a, b, -, hstart⟩, -⟩ := locateAux_mem_spec hm
  omega

theorem locateAux_pairwise {fuel : Nat} :
    ∀ {prev : Option Char} {s : Str} {pos : Nat},
      (locateAux fuel prev s pos).Pairwise (fun m1 m2 => m1.stop ≤ m2.start) := by
  induction fuel with
  | zero => intro prev s pos; simp [locateAux]
  | succ fuel ih =>
    intro prev s pos
    cases s with
    | nil => simp [locateAux]
    | cons c cs =>
      simp only [locateAux]
      split
      · rename_i m0 hmc
        refine List.Pairwise.cons ?_ ih
        intro m' hm'
        simpa using locateAux_start_ge hm'
      · exact ih

theorem locate_mem_spec {code : Str} {m : StmtMatch} (hm : m ∈ locate code) :
    (∃ a b : Str, code = a ++ (m.text ++ b) ∧ m.start = a.length) ∧
      m.stop = m.start + m.text.length ∧
      m.text.getLast? = some '.' ∧
      startsWithSelectCI m.text = true := by
  have h := @locateAux_mem_spec (code.length + 1) none code 0 m hm
  obtain ⟨⟨a, b, hs, hstart⟩, hrest⟩ := h
  exact ⟨⟨a, b, hs, by simpa using hstart⟩, hrest⟩

theorem locate_text_extract {code : Str} {m : StmtMatch} (hm : m ∈ locate code) :
    m.text = (code.drop m.start).take (m.stop - m.start) := by
  obtain ⟨⟨a, b, hs, hstart⟩, hstop, -, -⟩ := locate_mem_spec hm
  rw [hs, hstop, hstart, Nat.add_sub_cancel_left, List.drop_left,
    List.take_left' rfl]

theorem locate_text_ne_nil {code : Str} {m : StmtMatch} (hm : m ∈ locate code) :
    m.text ≠ [] := by
  obtain ⟨-, -, hdot, -⟩ := locate_mem_spec hm
  intro hnil
  rw [hnil] at hdot
  simp at hdot

theorem locate_start_lt_stop {code : Str} {m : StmtMatch} (hm : m ∈ locate code) :
    m.start < m.stop := by
  obtain ⟨-, hstop, hdot, -⟩ := locate_mem_spec hm
  have hne : m.text ≠ [] := by
    intro hnil; rw [hnil] at hdot; simp at hdot
  have := List.length_pos.mpr hne
  omega

theorem locate_stop_le {code : Str} {m : StmtMatch} (hm : m ∈ locate code) :
    m.stop ≤ code.length := by
  obtain ⟨⟨a, b, hs, hstart⟩, hstop, -, -⟩ := locate_mem_spec hm
  have hlen : code.length = a.length + (m.text.length + b.length) := by
    rw [hs]; simp
  omega

theorem locate_pairwise (code : Str) :
    (locate code).Pairwise (fun m1 m2 => m1.stop ≤ m2.start) :=
  locateAux_pairwise

theorem locate_spans_ne (code : Str) :
    (locate code).Pairwise
      (fun m1 m2 => (m1.start, m1.stop) ≠ (m2.start, m2.stop)) := by
  refine (locate_pairwise code).imp_of_mem ?_
  intro m1 m2 h1 h2 hle
  have := locate_start_lt_stop h1
  intro hps
  have : m1.start = m2.start := congrArg Prod.fst hps
  omega


/-! ### Facts about `processStmt`, `scan_sql` and the `assess` deduplication -/

theorem processStmt_span {code : Str} {m : StmtMatch} {f : Finding}
    (h : processStmt code m = some f) : f.span = (m.start, m.stop) := by
  simp only [processStmt] at h
  split at h
  · simp at h
    rw [← h]
  · split at h
    · exact absurd h (by simp)
    · simp at h
      rw [← h]

theorem processStmt_mem_scan {code : Str} {m : StmtMatch} {f : Finding}
    (hm : m ∈ locate code) (h : processStmt code m = some f) : f ∈ scan_sql code :=
  List.mem_filterMap.mpr ⟨m, hm, h⟩

theorem filterMap_map_sublist {α β γ : Type} (g : α → Option β) (h : β → γ) (k : α → γ)
    (hcomp : ∀ a b, g a = some b → h b = k a) :
    ∀ l : List α, ((l.filterMap g).map h).Sublist (l.map k) := by
  intro l
  induction l with
  | nil => simp
  | cons a l ih =>
    cases hga : g a with
    | none =>
      simp only [List.filterMap_cons, hga, List.map_cons]
      exact ih.cons _
    | some b =>
      simp only [List.filterMap_cons, hga, List.map_cons, hcomp a b hga]
      exact ih.cons₂ _

theorem scan_spans_sublist (code : Str) :
    ((scan_sql code).map Finding.span).Sublist
      ((locate code).map fun m => (m.start, m.stop)) :=
  filterMap_map_sublist (processStmt code) Finding.span
    (fun m => (m.start, m.stop)) (fun _ _ hf => processStmt_span hf) (locate code)

theorem scan_spans_pairwise_ne (code : Str) :
    (scan_sql code).Pairwise (fun f g => f.span ≠ g.span) := by
  have h2 : ((locate code).map fun m => (m.start, m.stop)).Pairwise (· ≠ ·) :=
    (List.pairwise_map).mpr (locate_spans_ne code)
  have h3 := h2.sublist (scan_spans_sublist code)
  exact (List.pairwise_map).mp h3

theorem pairwise_key_inj {α κ : Type} (k : α → κ) :
    ∀ {l : List α}, l.Pairwise (fun a b => k a ≠ k b) →
      ∀ {a b : α}, a ∈ l → b ∈ l → k a = k b → a = b := by
  intro l
  induction l with
  | nil => intro hp a b ha; simp at ha
  | cons x xs ih =>
    intro hp a b ha hb hk
    rw [List.pairwise_cons] at hp
    rcases List.mem_cons.mp ha with ha1 | ha1 <;> rcases List.mem_cons.mp hb with hb1 | hb1
    · rw [ha1, hb1]
    · subst ha1
      exact absurd hk (hp.1 b hb1)
    · subst hb1
      exact absurd hk.symm (hp.1 a ha1)
    · exact ih hp.2 ha1 hb1 hk

theorem filter_span_singleton :
    ∀ {l : List Finding} {f : Finding},
      l.Pairwise (fun a b => a.span ≠ b.span) → f ∈ l →
      l.filter (fun g => g.span = f.span) = [f] := by
  intro l
  induction l with
  | nil => intro f hp hf; simp at hf
  | cons x xs ih =>
    intro f hp hf
    rw [List.pairwise_cons] at hp
    rcases List.mem_cons.mp hf with hf1 | hf1
    · subst hf1
      rw [List.filter_cons, if_pos (by simp)]
      have hnil : xs.filter (fun g => g.span = f.span) = [] := by
        apply List.filter_eq_nil_iff.mpr
        intro g hg
        simp only [decide_eq_true_eq]
        intro hgf
        exact (hp.1 g hg) hgf.symm
      rw [hnil]
    · have hxne : x.span ≠ f.span := hp.1 f hf1
      rw [List.filter_cons, if_neg (by simpa using fun hx => hxne hx)]
      exact ih hp.2 hf1

theorem dedupFindingsAux_id :
    ∀ {l : List Finding} {seen : List (Str × Nat × Nat)},
      l.Pairwise (fun f g => (f.target_type, f.span) ≠ (g.target_type, g.span)) →
      (∀ f ∈ l, (f.target_type, f.span) ∉ seen) →
      dedupFindingsAux seen l = l := by
  intro l
  induction l with
  | nil => intro seen hp hs; rfl
  | cons f fs ih =>
    intro seen hp hs
    rw [List.pairwise_cons] at hp
    simp only [dedupFindingsAux]
    rw [if_neg (hs f (by simp))]
    congr 1
    apply ih hp.2
    intro g hg
    simp only [List.mem_cons]
    rintro (hk | hk)
    · exact hp.1 g hg hk.symm
    · exact hs g (List.mem_cons_of_mem f hg) hk

theorem dedupFindings_scan (code : Str) :
    dedupFindings (scan_sql code) = scan_sql code := by
  apply dedupFindingsAux_id
  · have h := scan_spans_pairwise_ne code
    refine h.imp ?_
    intro f g hne hk
    exact hne (congrArg Prod.snd hk)
  · simp


/-! ### The newline replacement before the ORDER BY search is immaterial

`scan_sql` replaces newlines by spaces before searching for `ORDER\s+BY`.
Since `\s` matches both characters and the literal letters of the pattern
match neither, the replacement does not change the search result. -/

theorem replaceNl_cons (c : Char) (cs : Str) :
    replaceNl (c :: cs) = nlMap c :: replaceNl cs := rfl

theorem lowerEq_nlMap {p : Char} (h1 : p.toLower ≠ ' ') (h2 : p.toLower ≠ '\n')
    (c : Char) : lowerEq p (nlMap c) = lowerEq p c := by
  by_cases hc : c = '\n'
  · subst hc
    have e1 : nlMap '\n' = ' ' := rfl
    rw [e1]
    simp only [lowerEq]
    have f1 : (p.toLower == (' ' : Char).toLower) = false := by
      have : (' ' : Char).toLower = ' ' := rfl
      rw [this]
      exact beq_eq_false_iff_ne.mpr h1
    have f2 : (p.toLower == ('\n' : Char).toLower) = false := by
      have : ('\n' : Char).toLower = '\n' := rfl
      rw [this]
      exact beq_eq_false_iff_ne.mpr h2
    rw [f1, f2]
  · have : nlMap c = c := by simp [nlMap, hc]
    rw [this]

theorem isSpaceChar_nlMap (c : Char) : isSpaceChar (nlMap c) = isSpaceChar c := by
  by_cases hc : c = '\n'
  · subst hc; decide
  · have : nlMap c = c := by simp [nlMap, hc]
    rw [this]

theorem splitCI_replaceNl {p : Str}
    (hp : ∀ pc ∈ p, pc.toLower ≠ ' ' ∧ pc.toLower ≠ '\n') :
    ∀ s : Str, splitCI p (replaceNl s) =
      (splitCI p s).map fun pr => (replaceNl pr.1, replaceNl pr.2) := by
  induction p with
  | nil => intro s; simp [splitCI, replaceNl]
  | cons pc ps ih =>
    intro s
    cases s with
    | nil => simp [splitCI, replaceNl]
    | cons c cs =>
      have hpc := hp pc (by simp)
      rw [replaceNl_cons]
      simp only [splitCI]
      rw [lowerEq_nlMap hpc.1 hpc.2]
      by_cases hc : lowerEq pc c = true
      · rw [if_pos hc, if_pos hc]
        rw [ih (fun q hq => hp q (List.mem_cons_of_mem _ hq)) cs]
        cases hsp : splitCI ps cs with
        | none => simp
        | some pr => simp [replaceNl_cons]
      · rw [if_neg hc, if_neg hc]
        simp

theorem spanSpaces_replaceNl (s : Str) :
    spanSpaces (replaceNl s) =
      (replaceNl (spanSpaces s).1, replaceNl (spanSpaces s).2) := by
  induction s with
  | nil => simp [spanSpaces, replaceNl]
  | cons c cs ih =>
    rw [replaceNl_cons]
    simp only [spanSpaces]
    rw [isSpaceChar_nlMap]
    by_cases hc : isSpaceChar c = true
    · rw [if_pos hc, if_pos hc]
      simp [ih, replaceNl_cons]
    · rw [if_neg hc, if_neg hc]
      simp [replaceNl_cons, replaceNl]

theorem takeSpaces1_replaceNl (s : Str) :
    takeSpaces1 (replaceNl s) =
      (takeSpaces1 s).map fun pr => (replaceNl pr.1, replaceNl pr.2) := by
  simp only [takeSpaces1, spanSpaces_replaceNl]
  by_cases h : (spanSpaces s).1.isEmpty
  · rw [if_pos h, if_pos (by simpa [replaceNl] using congrArg (List.map nlMap) (List.isEmpty_iff.mp h))]
    rfl
  · rw [if_neg h, if_neg ?hne]
    · rfl
    · intro hcon
      apply h
      have := List.isEmpty_iff.mp hcon
      simp [replaceNl] at this
      simp [this]

theorem orderByAt_replaceNl (s : Str) : orderByAt (replaceNl s) = orderByAt s := by
  have hord : ∀ pc ∈ lit "order", pc.toLower ≠ ' ' ∧ pc.toLower ≠ '\n' := by decide
  have hby : ∀ pc ∈ lit "by", pc.toLower ≠ ' ' ∧ pc.toLower ≠ '\n' := by decide
  simp only [orderByAt]
  rw [splitCI_replaceNl hord s]
  cases h1 : splitCI (lit "order") s with
  | none => rfl
  | some pr1 =>
    simp only [Option.map_some']
    rw [takeSpaces1_replaceNl]
    cases h2 : takeSpaces1 pr1.2 with
    | none => rfl
    | some pr2 =>
      simp only [Option.map_some']
      rw [splitCI_replaceNl hby]
      simp

theorem orderBySearch_replaceNl (s : Str) :
    orderBySearch (replaceNl s) = orderBySearch s := by
  induction s with
  | nil => rfl
  | cons c cs ih =>
    rw [replaceNl_cons]
    simp only [orderBySearch]
    rw [← replaceNl_cons, orderByAt_replaceNl, ih]


/-! ### Tokenization: the findall scan yields exactly the maximal runs -/

/-- Modelled from the spec's words: the "maximal alphanumeric/underscore
token runs" of a string, phrased with takeWhile/dropWhile. -/
def maximalRuns (s : Str) : List Str :=
  match s with
  | [] => []
  | c :: cs =>
    if isWordChar c then
      (c :: cs.takeWhile isWordChar) :: maximalRuns (cs.dropWhile isWordChar)
    else maximalRuns cs
termination_by s.length
decreasing_by
  · simp only [List.length_cons]
    have := (cs.dropWhile_sublist isWordChar).length_le
    omega
  · simp

theorem maximalRuns_nil : maximalRuns [] = [] := by
  rw [maximalRuns.eq_def]

theorem maximalRuns_cons (c : Char) (cs : Str) :
    maximalRuns (c :: cs) =
      if isWordChar c then
        (c :: cs.takeWhile isWordChar) :: maximalRuns (cs.dropWhile isWordChar)
      else maximalRuns cs := by
  rw [maximalRuns.eq_def]

theorem wordFindAux_spec :
    ∀ (s cur : Str), wordFindAux cur s =
      if cur.isEmpty then maximalRuns s
      else (cur.reverse ++ s.takeWhile isWordChar) ::
        maximalRuns (s.dropWhile isWordChar) := by
  intro s
  induction s with
  | nil =>
    intro cur
    by_cases hcur : cur.isEmpty
    · rw [if_pos hcur]
      simp [wordFindAux, hcur, maximalRuns_nil]
    · rw [if_neg hcur]
      simp [wordFindAux, hcur, maximalRuns_nil]
  | cons c cs ih =>
    intro cur
    by_cases hw : isWordChar c = true
    · have hL : wordFindAux cur (c :: cs) = wordFindAux (c :: cur) cs := by
        simp [wordFindAux, hw]
      rw [hL, ih (c :: cur)]
      rw [if_neg (by simp)]
      by_cases hcur : cur.isEmpty
      · rw [if_pos hcur]
        rw [List.isEmpty_iff.mp hcur]
        rw [maximalRuns_cons, if_pos hw]
        simp
      · rw [if_neg hcur]
        simp only [List.takeWhile_cons, List.dropWhile_cons, hw, if_pos]
        simp
    · by_cases hcur : cur.isEmpty
      · have hL : wordFindAux cur (c :: cs) = wordFindAux [] cs := by
          simp [wordFindAux, hw, hcur]
        rw [hL, ih []]
        rw [if_pos hcur, if_pos (by simp)]
        rw [maximalRuns_cons, if_neg (by simp [hw])]
      · have hL : wordFindAux cur (c :: cs) = cur.reverse :: wordFindAux [] cs := by
          simp [wordFindAux, hw, hcur]
        rw [hL, ih []]
        rw [if_neg hcur, if_pos (by simp)]
        simp only [List.takeWhile_cons, List.dropWhile_cons, hw]
        simp only [Bool.false_eq_true, if_false]
        rw [maximalRuns_cons, if_neg (by simp [hw])]
        simp

theorem findallWords_eq_maximalRuns (s : Str) : findallWords s = maximalRuns s := by
  have h := wordFindAux_spec s []
  rw [if_pos (by simp)] at h
  simpa [findallWords] using h

/-- Modelled from the spec's words: tokenize the cleaned selection clause
into maximal identifier runs, uppercase each token, discard tokens equal to
DISTINCT, and deduplicate keeping first occurrences. -/
def specFieldList (cleaned : Str) : List Str :=
  dedupe (((maximalRuns cleaned).map upperStr).filter fun t => t ≠ lit "DISTINCT")

theorem fieldList_eq_spec (cleaned : Str) : fieldList cleaned = specFieldList cleaned := by
  simp [fieldList, specFieldList, findallWords_eq_maximalRuns]


/-! ### Branch behavior of `processStmt` -/

/-- The FOR ALL ENTRIES branch's `found_sort` flag. -/
def faeFound (code : Str) (m : StmtMatch) : Bool :=
  match intoTableTarget m.text with
  | some t => sortSearch t (removeCommentLines (code.drop m.stop))
  | none => false

theorem processStmt_wildcard {code : Str} {m : StmtMatch}
    (hw : (cleanSelect m.isSingle m.selectRaw).contains '*' = true) :
    processStmt code m = some ⟨lit "SQL_SELECT", tagName m.isSingle (hasFae m.text),
      (m.start, m.stop), [lit "*"], wildcardMsg⟩ := by
  have hmem : '*' ∈ cleanSelect m.isSingle m.selectRaw := by simpa using hw
  simp [processStmt, hmem]

theorem processStmt_single {code : Str} {m : StmtMatch}
    (hs : m.isSingle = true)
    (hw : (cleanSelect m.isSingle m.selectRaw).contains '*' = false) :
    processStmt code m = none := by
  have hw' := hw
  rw [hs] at hw'
  have hmem : '*' ∉ cleanSelect true m.selectRaw := by simpa using hw'
  simp [processStmt, hs, hmem]

theorem processStmt_plain {code : Str} {m : StmtMatch}
    (hs : m.isSingle = false) (hf : hasFae m.text = false)
    (hw : (cleanSelect m.isSingle m.selectRaw).contains '*' = false) :
    processStmt code m =
      if orderBySearch (replaceNl m.text) = true then none
      else some ⟨lit "SQL_SELECT", lit "NO_FOR_ALL_ENTRIES", (m.start, m.stop),
        fieldList (cleanSelect false m.selectRaw),
        orderByMsg (fieldList (cleanSelect false m.selectRaw))⟩ := by
  have hw' := hw
  rw [hs] at hw'
  have hmem : '*' ∉ cleanSelect false m.selectRaw := by simpa using hw'
  cases horder : orderBySearch (replaceNl m.text) with
  | false => simp [processStmt, hs, hf, hmem, horder, tagName]
  | true => simp [processStmt, hs, hf, hmem, horder]

theorem processStmt_fae {code : Str} {m : StmtMatch}
    (hs : m.isSingle = false) (hf : hasFae m.text = true)
    (hw : (cleanSelect m.isSingle m.selectRaw).contains '*' = false) :
    processStmt code m =
      if faeFound code m = true then none
      else some ⟨lit "SQL_SELECT", lit "FOR_ALL_ENTRIES", (m.start, m.stop),
        fieldList (cleanSelect false m.selectRaw),
        sortMsg (fieldList (cleanSelect false m.selectRaw)) (intoTableTarget m.text)⟩ := by
  have hw' := hw
  rw [hs] at hw'
  have hmem : '*' ∉ cleanSelect false m.selectRaw := by simpa using hw'
  cases htt : intoTableTarget m.text with
  | none =>
    have hfound : faeFound code m = false := by simp [faeFound, htt]
    simp [processStmt, hs, hf, hmem, htt, hfound, tagName]
  | some tbl =>
    cases hss : sortSearch tbl (removeCommentLines (code.drop m.stop)) with
    | false =>
      have hfound : faeFound code m = false := by simp [faeFound, htt, hss]
      simp [processStmt, hs, hf, hmem, htt, hss, hfound, tagName]
    | true =>
      have hfound : faeFound code m = true := by simp [faeFound, htt, hss]
      simp [processStmt, hs, hf, hmem, htt, hss, hfound]

theorem processStmt_fields {code : Str} {m : StmtMatch} {f : Finding}
    (hw : (cleanSelect m.isSingle m.selectRaw).contains '*' = false)
    (h : processStmt code m = some f) :
    f.used_fields = fieldList (cleanSelect m.isSingle m.selectRaw) := by
  simp only [processStmt] at h
  rw [hw] at h
  simp only [Bool.false_eq_true, if_false] at h
  split at h
  · exact absurd h (by simp)
  · simp at h
    rw [← h]


/-! ### Claim theorems -/

/-- C1: for every located SELECT statement that is not single-row, does not
use FOR ALL ENTRIES, and whose cleaned selection clause contains no `*`, a
finding with variant tag NO_FOR_ALL_ENTRIES is emitted for that statement if
and only if the full matched statement text does not contain `ORDER BY`
(case-insensitive, any whitespace between the two words) within its span. -/
theorem claim1_plain_orderby_completeness {code : Str} {m : StmtMatch}
    (hm : m ∈ locate code) (hs : m.isSingle = false) (hf : hasFae m.text = false)
    (hw : (cleanSelect m.isSingle m.selectRaw).contains '*' = false) :
    (∃ f, processStmt code m = some f ∧ f.target_name = lit "NO_FOR_ALL_ENTRIES" ∧
        f ∈ scan_sql code) ↔
      orderBySearch m.text = false := by
  have hP := @processStmt_plain code m hs hf hw
  rw [← orderBySearch_replaceNl]
  cases horder : orderBySearch (replaceNl m.text) with
  | true =>
    rw [horder, if_pos rfl] at hP
    constructor
    · rintro ⟨f, hf1, -, -⟩
      rw [hP] at hf1
      exact absurd hf1 (by simp)
    · intro hcon
      simp at hcon
  | false =>
    rw [horder, if_neg (by simp)] at hP
    constructor
    · intro _
      rfl
    · intro _
      exact ⟨_, hP, rfl, processStmt_mem_scan hm hP⟩

def c1code : Str := lit "SELECT a FROM t."

def c1m : StmtMatch := ⟨0, 16, c1code, false, lit " a "⟩

theorem claim1_witness :
    ∃ f, processStmt c1code c1m = some f ∧ f.target_name = lit "NO_FOR_ALL_ENTRIES" ∧
      f ∈ scan_sql c1code :=
  (claim1_plain_orderby_completeness (by decide) (by decide) (by decide)
    (by decide)).mpr (by decide)

/-- C2: for every located SELECT statement that uses FOR ALL ENTRIES, is not
single-row and has no `*` in the cleaned selection clause, a finding with
variant tag FOR_ALL_ENTRIES is emitted iff the comment-stripped text after
the statement's end offset has no `SORT <table> ... BY` match for the
extracted INTO TABLE target; when no target was extracted the finding is
always emitted (the right-hand side is then vacuous). -/
theorem claim2_fae_sort_completeness {code : Str} {m : StmtMatch}
    (hm : m ∈ locate code) (hs : m.isSingle = false) (hf : hasFae m.text = true)
    (hw : (cleanSelect m.isSingle m.selectRaw).contains '*' = false) :
    (∃ f, processStmt code m = some f ∧ f.target_name = lit "FOR_ALL_ENTRIES" ∧
        f ∈ scan_sql code) ↔
      (∀ tbl, intoTableTarget m.text = some tbl →
        sortSearch tbl (removeCommentLines (code.drop m.stop)) = false) := by
  have hP := @processStmt_fae code m hs hf hw
  cases hfound : faeFound code m with
  | true =>
    rw [hfound, if_pos rfl] at hP
    constructor
    · rintro ⟨f, hf1, -, -⟩
      rw [hP] at hf1
      exact absurd hf1 (by simp)
    · intro hall
      exfalso
      simp only [faeFound] at hfound
      cases htt : intoTableTarget m.text with
      | none => rw [htt] at hfound; simp at hfound
      | some tbl =>
        rw [htt] at hfound
        simp only at hfound
        rw [hall tbl htt] at hfound
        exact absurd hfound (by simp)
  | false =>
    rw [hfound, if_neg (by simp)] at hP
    constructor
    · intro _ tbl htt
      simp only [faeFound] at hfound
      rw [htt] at hfound
      simpa using hfound
    · intro _
      exact ⟨_, hP, rfl, processStmt_mem_scan hm hP⟩

def c2code : Str := lit "SELECT a FROM t FOR ALL ENTRIES IN x INTO TABLE itab."

def c2m : StmtMatch := ⟨0, 53, c2code, false, lit " a "⟩

theorem claim2_witness :
    ∃ f, processStmt c2code c2m = some f ∧ f.target_name = lit "FOR_ALL_ENTRIES" ∧
      f ∈ scan_sql c2code :=
  (claim2_fae_sort_completeness (by decide) (by decide) (by decide)
    (by decide)).mpr (by
      intro tbl htt
      have he : intoTableTarget c2m.text = some (lit "itab") := by decide
      rw [he] at htt
      injection htt with h
      subst h
      decide)

/-- C3: for every located SELECT statement whose cleaned selection clause
contains `*`, exactly one finding is emitted for that statement, with
used_fields `["*"]` and the avoid-wildcard suggestion (hence no ORDER BY or
SORT suggestion), regardless of SINGLE or FOR ALL ENTRIES. -/
theorem claim3_wildcard_precedence {code : Str} {m : StmtMatch}
    (hm : m ∈ locate code)
    (hw : (cleanSelect m.isSingle m.selectRaw).contains '*' = true) :
    ∃ f, processStmt code m = some f ∧ f.used_fields = [lit "*"] ∧
      f.suggested_statement = wildcardMsg ∧
      (scan_sql code).filter (fun g => g.span = (m.start, m.stop)) = [f] := by
  have hP := @processStmt_wildcard code m hw
  refine ⟨_, hP, rfl, rfl, ?_⟩
  have hfmem := processStmt_mem_scan hm hP
  exact filter_span_singleton (scan_spans_pairwise_ne code) hfmem

def c3code : Str := lit "SELECT * FROM t."

def c3m : StmtMatch := ⟨0, 16, c3code, false, lit " * "⟩

theorem claim3_witness :
    ∃ f, processStmt c3code c3m = some f ∧ f.used_fields = [lit "*"] ∧
      f.suggested_statement = wildcardMsg ∧
      (scan_sql c3code).filter (fun g => g.span = (c3m.start, c3m.stop)) = [f] :=
  claim3_wildcard_precedence (by decide) (by decide)

/-- C4: for every located SELECT statement matched with the single-row
modifier whose cleaned selection clause contains no `*`, no finding is
emitted for that statement. -/
theorem claim4_single_exemption {code : Str} {m : StmtMatch}
    (hm : m ∈ locate code) (hs : m.isSingle = true)
    (hw : (cleanSelect m.isSingle m.selectRaw).contains '*' = false) :
    processStmt code m = none ∧
      ∀ f ∈ scan_sql code, f.span ≠ (m.start, m.stop) := by
  have hP := @processStmt_single code m hs hw
  refine ⟨hP, ?_⟩
  intro f hfs hspan
  obtain ⟨m', hm', hP'⟩ := List.mem_filterMap.mp hfs
  have hspan' : (m'.start, m'.stop) = (m.start, m.stop) := by
    rw [← processStmt_span hP', hspan]
  have hinj := pairwise_key_inj (fun mm : StmtMatch => (mm.start, mm.stop))
    (locate_spans_ne code) hm' hm hspan'
  rw [hinj, hP] at hP'
  exact absurd hP' (by simp)

def c4code : Str := lit "SELECT SINGLE a FROM t."

def c4m : StmtMatch := ⟨0, 23, c4code, true, lit " a "⟩

theorem claim4_witness :
    processStmt c4code c4m = none ∧
      ∀ f ∈ scan_sql c4code, f.span ≠ (c4m.start, c4m.stop) :=
  claim4_single_exemption (by decide) (by decide) (by decide)

def c5src : Str := lit "SELECT a FROM t1 SELECT b FROM t2."

def c5m0 : StmtMatch := ⟨0, 34, c5src, false, lit " a "⟩

/-- C5 counterexample: the claim asserts that a candidate with no
terminating period before the SELECT keyword recurs is not matched and that
no located span extends across a second SELECT occurrence.  On
`"SELECT a FROM t1 SELECT b FROM t2."` the locator reports exactly one match
spanning the whole string (span `(0, 34)`), although a second SELECT keyword
occurrence starts inside the span at offset 17 (word boundary before it,
shown by the last two conjuncts): the lazy `.*?\.` tail simply runs through
the second SELECT to the first period of the source. -/
theorem claim5_counterexample :
    ((locate c5src).map fun m => (m.start, m.stop)) = [(0, 34)] ∧
      startsWithSelectCI (c5src.drop 17) = true ∧
      isWordOpt (c5src.drop 16).head? = false := by decide

/-- C5 amended: every located match is a contiguous span of the source
whose text ends with the terminating period, so a candidate with no period
before the source ends (in particular a final SELECT with no terminating
period) yields no match; matches are non-overlapping and the locator resumes
after each match's end.  (The original claim's stronger assertion that a
span never extends across a second SELECT occurrence is false.) -/
theorem claim5_amended (code : Str) :
    (∀ m ∈ locate code, m.text = (code.drop m.start).take (m.stop - m.start) ∧
        m.text.getLast? = some '.') ∧
      (locate code).Pairwise (fun m1 m2 => m1.stop ≤ m2.start) := by
  refine ⟨?_, locate_pairwise code⟩
  intro m hm
  exact ⟨locate_text_extract hm, (locate_mem_spec hm).2.2.1⟩

theorem claim5_amended_witness :
    c5m0.text = (c5src.drop c5m0.start).take (c5m0.stop - c5m0.start) ∧
      c5m0.text.getLast? = some '.' :=
  (claim5_amended c5src).1 c5m0 (by decide)

/-- C6: for every finding, `0 ≤ start ≤ stop ≤ len code`, the spanned source
slice begins with the SELECT keyword (case-insensitively) and ends with a
period, every finding span is a located-statement span, and the findings
appear in located order (the span list is a sublist of the locator's span
list). -/
theorem claim6_span_validity (code : Str) :
    (∀ f ∈ scan_sql code,
        f.span.1 ≤ f.span.2 ∧ f.span.2 ≤ code.length ∧
        startsWithSelectCI ((code.drop f.span.1).take (f.span.2 - f.span.1)) = true ∧
        ((code.drop f.span.1).take (f.span.2 - f.span.1)).getLast? = some '.') ∧
      ((scan_sql code).map Finding.span).Sublist
        ((locate code).map fun m => (m.start, m.stop)) := by
  refine ⟨?_, scan_spans_sublist code⟩
  intro f hfs
  obtain ⟨m, hm, hP⟩ := List.mem_filterMap.mp hfs
  rw [processStmt_span hP]
  have hext := locate_text_extract hm
  refine ⟨Nat.le_of_lt (locate_start_lt_stop hm), locate_stop_le hm, ?_, ?_⟩
  · rw [← hext]
    exact (locate_mem_spec hm).2.2.2
  · rw [← hext]
    exact (locate_mem_spec hm).2.2.1

def c6code : Str := lit "SELECT z FROM t."

def c6f : Finding := ⟨lit "SQL_SELECT", lit "NO_FOR_ALL_ENTRIES", (0, 16),
  [lit "Z"], lit "Add ORDER BY Z inside SELECT (all fields in select list)."⟩

theorem claim6_witness :
    c6f.span.1 ≤ c6f.span.2 ∧ c6f.span.2 ≤ c6code.length ∧
      startsWithSelectCI ((c6code.drop c6f.span.1).take (c6f.span.2 - c6f.span.1)) = true ∧
      ((c6code.drop c6f.span.1).take (c6f.span.2 - c6f.span.1)).getLast? = some '.' :=
  (claim6_span_validity c6code).1 c6f (by decide)

/-- C7: for every non-wildcard located statement, the used_fields list of
any emitted finding equals the spec-side tokenization of the cleaned
selection clause: maximal alphanumeric/underscore runs, uppercased, with
DISTINCT discarded, deduplicated preserving first occurrence. -/
theorem claim7_used_fields {code : Str} {m : StmtMatch} {f : Finding}
    (_hm : m ∈ locate code)
    (hw : (cleanSelect m.isSingle m.selectRaw).contains '*' = false)
    (hP : processStmt code m = some f) :
    f.used_fields = specFieldList (cleanSelect m.isSingle m.selectRaw) := by
  rw [processStmt_fields hw hP, fieldList_eq_spec]

def c7code : Str := lit "SELECT DISTINCT a b a FROM t."

def c7m : StmtMatch := ⟨0, 29, c7code, false, lit " DISTINCT a b a "⟩

def c7f : Finding := ⟨lit "SQL_SELECT", lit "NO_FOR_ALL_ENTRIES", (0, 29),
  [lit "A", lit "B"], lit "Add ORDER BY A, B inside SELECT (all fields in select list)."⟩

theorem claim7_witness :
    c7f.used_fields = specFieldList (cleanSelect c7m.isSingle c7m.selectRaw) :=
  @claim7_used_fields c7code c7m c7f (by decide) (by decide) (by decide)

/-- C8: the scan is a deterministic pure function of the source string: two
runs on equal source texts yield identical finding lists, element for
element, with no dependence on any other state (in this embedding `scan_sql`
is a function of the source text alone). -/
theorem claim8_determinism (code1 code2 : Str) (h : code1 = code2) :
    scan_sql code1 = scan_sql code2 ∧
      (scan_sql code1).length = (scan_sql code2).length ∧
      ∀ i : Nat, (scan_sql code1).get? i = (scan_sql code2).get? i := by
  subst h
  exact ⟨rfl, rfl, fun _ => rfl⟩

theorem claim8_witness :
    scan_sql (lit "SELECT a FROM t.") = scan_sql (lit "SELECT a FROM t.") :=
  (claim8_determinism _ _ rfl).1

/-- C9: the scan never fails: the empty source (and a unit with absent
source) yields the empty finding list, and a FOR ALL ENTRIES statement with
no extractable INTO TABLE target still yields a finding whose suggestion is
the generic wording (with the absent target printed as `None`), rather than
an error.  Totality of every scan function holds by construction of the
embedding. -/
theorem claim9_graceful_degradation :
    scan_sql (lit "") = [] ∧
      (∀ u : CodeUnit, u.code = none → assessUnit u = []) ∧
      (∀ (code : Str) (m : StmtMatch), m ∈ locate code → m.isSingle = false →
        hasFae m.text = true →
        (cleanSelect m.isSingle m.selectRaw).contains '*' = false →
        intoTableTarget m.text = none →
        ∃ f, processStmt code m = some f ∧ f ∈ scan_sql code ∧
          f.suggested_statement =
            sortMsg (fieldList (cleanSelect false m.selectRaw)) none) := by
  refine ⟨rfl, ?_, ?_⟩
  · intro u hu
    unfold assessUnit
    rw [hu]
    rfl
  · intro code m hm hs hf hw htt
    have hP := @processStmt_fae code m hs hf hw
    have hfound : faeFound code m = false := by simp [faeFound, htt]
    rw [hfound, if_neg (by simp), htt] at hP
    exact ⟨_, hP, processStmt_mem_scan hm hP, rfl⟩

def c9code : Str := lit "SELECT a FROM t FOR ALL ENTRIES IN x."

def c9m : StmtMatch := ⟨0, 37, c9code, false, lit " a "⟩

theorem claim9_witness :
    ∃ f, processStmt c9code c9m = some f ∧ f ∈ scan_sql c9code ∧
      f.suggested_statement =
        sortMsg (fieldList (cleanSelect false c9m.selectRaw)) none :=
  claim9_graceful_degradation.2.2 c9code c9m (by decide) (by decide) (by decide)
    (by decide) (by decide)

/-- C10: findings of one scan have pairwise-distinct spans, so the
deduplication of `assess` by (target type, span) removes nothing: the
aggregated finding list of a unit is exactly the scan's output. -/
theorem claim10_dedup_identity (code : Str) :
    (scan_sql code).Pairwise (fun f g => f.span ≠ g.span) ∧
      dedupFindings (scan_sql code) = scan_sql code ∧
      ∀ u : CodeUnit, assessUnit u = scan_sql (u.code.getD []) := by
  refine ⟨scan_spans_pairwise_ne code, dedupFindings_scan code, ?_⟩
  intro u
  unfold assessUnit
  exact dedupFindings_scan _

end AbapScan
